import Mathlib

/-!
Verification of the Krylov-subspace model-order-reduction engine
(`sharpy/rom/reducedordermodel.py`).

The Python source is embedded shallowly, in exact arithmetic:

* numpy arrays become functions `Fin n → K` and `Matrix (Fin n) (Fin r) K`,
  where `K` is a real-closed-or-complex field (`RCLike`), matching the
  source's uniform `dtype=complex` buffers (real data is the case `K = ℝ`);
* `np.linalg.norm` becomes `npNorm` (the Euclidean norm, square root of the
  sum of squared absolute values — numpy's documented behaviour);
* `scipy.linalg.lu_factor` / `lu_solve` are modelled by their documented
  exact-arithmetic contract: `lu_solve(lu_factor(M), b, trans)` solves
  `M x = b` (or `Mᵀ x = b` when `trans = 1`).  `luFactor` is the pure value
  carrying the factorization (in exact arithmetic the factorization is
  determined by `M`), and `luSolve` applies the corresponding inverse;
* `scipy.linalg.inv` becomes Mathlib's matrix inverse;
* the mutable `ReducedOrderModel` object becomes the state record `ROM`,
  and methods become state-passing functions; a raised Python exception
  becomes a `some`-valued second component (`Option RunErr`), with the
  mutated state returned alongside, as a raised exception leaves the
  Python object in its current state;
* `libss.ss` (a collaborator outside the reduced-order-model source file)
  is modelled from the spec as the plain record `RedSys` holding the
  reduced matrices together with the original `D` and sample interval.

The upper-Hessenberg bookkeeping matrix `H` of `construct_krylov` is not
modelled: in the source, `V` and the residual columns `f` never read `H`,
so `H` has no effect on any quantity the claims mention.
-/

open Matrix

noncomputable section

namespace SharpyRom

/-- numpy's `np.linalg.norm` of a vector: the square root of the sum of the
squared absolute values of the entries (for real entries, of the squares). -/
def npNorm {n : ℕ} {K : Type} [RCLike K] (v : Fin n → K) : ℝ :=
  Real.sqrt (∑ i, ‖v i‖ ^ 2)

/-- The normalisation `v / np.linalg.norm(v)` (equivalently the source's
`1 / beta * f`): scalar division of a vector by its Euclidean norm. -/
def normStep {n : ℕ} {K : Type} [RCLike K] (v : Fin n → K) : Fin n → K :=
  (algebraMap ℝ K (npNorm v))⁻¹ • v

/-- One (modified) Gram–Schmidt pass of `construct_krylov`'s loop body:
`w - V[:, :m].dot(V[:, :m].T.dot(w))`, with the basis columns given as the
function `V` and only the first `m` of them involved. -/
def gsOnce {n : ℕ} {K : Type} [RCLike K] (V : ℕ → Fin n → K) (m : ℕ)
    (w : Fin n → K) : Fin n → K :=
  w - ∑ i ∈ Finset.range m, (V i ⬝ᵥ w) • V i

/-- The double Gram–Schmidt pass of `construct_krylov`'s loop body: the
first pass produces `f[:, j+1]`, the `s`-correction subtracts the second
projection (`f[:, j+1] - V.dot(s)` with `s = V.T.dot(f[:, j+1])`). -/
def gsTwice {n : ℕ} {K : Type} [RCLike K] (V : ℕ → Fin n → K) (m : ℕ)
    (w : Fin n → K) : Fin n → K :=
  gsOnce V m (gsOnce V m w)

/-- One iteration of the loop `for j in range(0, r-1)` of `construct_krylov`,
acting on the pair (columns written so far, current residual `f[:, j]`):
normalise the residual into column `j+1`, apply the operator, and
orthogonalise twice against columns `0..j+1`. -/
def arnoldiStep {n : ℕ} {K : Type} [RCLike K]
    (op : (Fin n → K) → Fin n → K) (j : ℕ)
    (p : (ℕ → Fin n → K) × (Fin n → K)) : (ℕ → Fin n → K) × (Fin n → K) :=
  (Function.update p.1 (j + 1) (normStep p.2),
    gsTwice (Function.update p.1 (j + 1) (normStep p.2)) (j + 2)
      (op (normStep p.2)))

/-- State of `construct_krylov` after `k` loop iterations, starting from the
initial assembly `V[:, 0] = v0`, `f[:, 0] = f0` (columns not yet written are
the zeros the buffer `V = np.zeros((nx, r))` was allocated with). -/
def arnoldiIter {n : ℕ} {K : Type} [RCLike K]
    (op : (Fin n → K) → Fin n → K) (v0 f0 : Fin n → K) :
    ℕ → (ℕ → Fin n → K) × (Fin n → K)
  | 0 => (Function.update (fun _ => (0 : Fin n → K)) 0 v0, f0)
  | k + 1 => arnoldiStep op k (arnoldiIter op v0 f0 k)

/-- scipy's `lu_factor`, modelled by its documented exact-arithmetic
contract: the returned pair `(lu, piv)` is a factorization of `M` that
determines `M` itself, so in exact arithmetic it is carried as `M`. -/
def luFactor {n : ℕ} {K : Type} [RCLike K]
    (M : Matrix (Fin n) (Fin n) K) : Matrix (Fin n) (Fin n) K := M

/-- scipy's `lu_solve`, modelled by its documented exact-arithmetic
contract: `lu_solve(lu, b, trans=0)` solves `M x = b`, and `trans=1` solves
`Mᵀ x = b`, for the matrix `M` underlying the factorization. -/
def luSolve {n : ℕ} {K : Type} [RCLike K]
    (lu : Matrix (Fin n) (Fin n) K) (b : Fin n → K) (trans : Bool) :
    Fin n → K :=
  if trans then (luᵀ)⁻¹ *ᵥ b else lu⁻¹ *ᵥ b

/-- The pre-normalisation starting vector of `construct_krylov`: in Pade
mode the solve `lu_solve(lu_A, B, trans=transpose_mode)`, in partial
realisation mode `B` itself (`v_arb`). -/
def krylovInitV {n : ℕ} {K : Type} [RCLike K]
    (lu_A : Matrix (Fin n) (Fin n) K) (B : Fin n → K)
    (approx_type side : String) : Fin n → K :=
  if approx_type != (r"partial_realisation") then
    luSolve (luFactor lu_A) B (side == (r"c"))
  else B

/-- The first basis column `v` of `construct_krylov`: the starting vector
divided by its norm. -/
def krylovV0 {n : ℕ} {K : Type} [RCLike K]
    (lu_A : Matrix (Fin n) (Fin n) K) (B : Fin n → K)
    (approx_type side : String) : Fin n → K :=
  normStep (krylovInitV lu_A B approx_type side)

/-- The first candidate vector `w` of `construct_krylov`.  In Pade mode the
source computes `w = sclalg.lu_solve(lu_A, v)` — with the default
`trans=0`, NOT `trans=transpose_mode` — while in partial realisation mode
`w = A.dot(v)`. -/
def krylovW0 {n : ℕ} {K : Type} [RCLike K]
    (lu_A : Matrix (Fin n) (Fin n) K) (B : Fin n → K)
    (approx_type side : String) : Fin n → K :=
  if approx_type != (r"partial_realisation") then
    luSolve (luFactor lu_A) (krylovV0 lu_A B approx_type side) false
  else lu_A *ᵥ krylovV0 lu_A B approx_type side

/-- The initial residual `f[:, 0] = w - v.dot(alpha)` of `construct_krylov`
with `alpha = v.T.dot(w)` (plain transpose, no conjugation — numpy `dot`). -/
def krylovF0 {n : ℕ} {K : Type} [RCLike K]
    (lu_A : Matrix (Fin n) (Fin n) K) (B : Fin n → K)
    (approx_type side : String) : Fin n → K :=
  krylovW0 lu_A B approx_type side -
    (krylovV0 lu_A B approx_type side ⬝ᵥ krylovW0 lu_A B approx_type side) •
      krylovV0 lu_A B approx_type side

/-- The operator applied inside `construct_krylov`'s loop: in Pade mode
`sclalg.lu_solve(lu_A, v, trans=transpose_mode)`, in partial realisation
mode `A.dot(v)`. -/
def krylovOp {n : ℕ} {K : Type} [RCLike K]
    (lu_A : Matrix (Fin n) (Fin n) K) (approx_type side : String) :
    (Fin n → K) → Fin n → K :=
  fun u =>
    if approx_type != (r"partial_realisation") then
      luSolve (luFactor lu_A) u (side == (r"c"))
    else lu_A *ᵥ u

/-- The residual column `f[:, k]` of `construct_krylov` after `k` loop
iterations. -/
def krylovResidual {n : ℕ} {K : Type} [RCLike K]
    (lu_A : Matrix (Fin n) (Fin n) K) (B : Fin n → K)
    (approx_type side : String) (k : ℕ) : Fin n → K :=
  (arnoldiIter (krylovOp lu_A approx_type side)
    (krylovV0 lu_A B approx_type side) (krylovF0 lu_A B approx_type side)
    k).2

/-- `ReducedOrderModel.construct_krylov(r, lu_A, B, approx_type, side)`:
the returned projection matrix `V`, whose column `j` is the `j`-th basis
column after the `r-1` loop iterations.  (`side='c'` also flattens `B` to a
single column; with vector seeds this is the identity.) -/
def constructKrylov {n : ℕ} {K : Type} [RCLike K] (r : ℕ)
    (lu_A : Matrix (Fin n) (Fin n) K) (B : Fin n → K)
    (approx_type side : String) : Matrix (Fin n) (Fin r) K :=
  Matrix.of fun x j =>
    (arnoldiIter (krylovOp lu_A approx_type side)
      (krylovV0 lu_A B approx_type side) (krylovF0 lu_A B approx_type side)
      (r - 1)).1 j.val x

/-- Modelled from the spec: the Pade-mode basis construction described with
the shifted-operator inverse applied directly at every step — the spec's
"directly applying (sigma*I - A)^-1" — rather than by factor-once/
solve-many.  (`trans` selects the transpose action for the output side,
except for the first candidate vector, which the source computes with the
default non-transposed solve.) -/
def directSolve {n : ℕ} {K : Type} [RCLike K]
    (M : Matrix (Fin n) (Fin n) K) (b : Fin n → K) (trans : Bool) :
    Fin n → K :=
  if trans then (Mᵀ)⁻¹ *ᵥ b else M⁻¹ *ᵥ b

/-- Modelled from the spec: Pade-mode `construct_krylov` with every
operator application performed by direct inverse multiplication and no
stored factorization. -/
def constructKrylovDirect {n : ℕ} {K : Type} [RCLike K] (r : ℕ)
    (lu_A : Matrix (Fin n) (Fin n) K) (B : Fin n → K) (side : String) :
    Matrix (Fin n) (Fin r) K :=
  Matrix.of fun x j =>
    (arnoldiIter (fun u => directSolve lu_A u (side == (r"c")))
      (normStep (directSolve lu_A B (side == (r"c"))))
      (directSolve lu_A (normStep (directSolve lu_A B (side == (r"c")))) false -
        (normStep (directSolve lu_A B (side == (r"c"))) ⬝ᵥ
            directSolve lu_A (normStep (directSolve lu_A B (side == (r"c")))) false) •
          normStep (directSolve lu_A B (side == (r"c"))))
      (r - 1)).1 j.val x

/-- The biorthogonalisation correction applied by `two_sided_arnoldi` and
`dual_rational_arnoldi_siso`: `W = W.dot(sclalg.inv(W.T.dot(V)).T)`. -/
def biorthonormalise {n r : ℕ} {K : Type} [RCLike K]
    (W V : Matrix (Fin n) (Fin r) K) : Matrix (Fin n) (Fin r) K :=
  W * ((Wᵀ * V)⁻¹)ᵀ

/-- The `frequency` argument as the source distinguishes it: `None`,
`np.inf`, a finite scalar, or an array of interpolation points. -/
inductive Freq (K : Type) where
  | fnone : Freq K
  | finf : Freq K
  | fval (σ : K) : Freq K
  | flist (l : List K) : Freq K

/-- The full system handed to the reducer (`libss.ss` value, single-input
single-output): `A`, `B`, `C`, feed-through `D` and optional sample
interval `dt` (`None` means continuous time). -/
structure LinSys (n : ℕ) (K : Type) where
  A : Matrix (Fin n) (Fin n) K
  B : Fin n → K
  C : Fin n → K
  D : K
  dt : Option ℝ

/-- Modelled from the spec: the stored reduced system, built by
`libss.ss(Ar, Br, Cr, self.ss.D, self.ss.dt)` (the `libss` module is not
part of the reduced-order-model source file): the reduced matrices of order
`k` together with the original `D` and sample interval. -/
structure RedSys (K : Type) where
  k : ℕ
  A : Matrix (Fin k) (Fin k) K
  B : Fin k → K
  C : Fin k → K
  D : K
  dt : Option ℝ

/-- The Python exceptions the driver can raise. -/
inductive RunErr where
  | attributeError : RunErr
  | valueError : RunErr
  | assertionError : RunErr
  | notImplementedReal : RunErr
  | notRecognised (name : String) : RunErr
deriving DecidableEq

/-- The mutable state of a `ReducedOrderModel` object (the `settings_*`
dictionaries and the `data` handle are opaque external collaborators; the
`V`/`W`/`H` caches written only by the in-progress multi-point reducer are
not read by any claim and are not modelled). -/
structure ROM (n : ℕ) (K : Type) where
  ss : Option (LinSys n K)
  ssrom : Option (RedSys K)
  algorithm : Option String
  frequency : Option (Freq K)
  r : ℕ
  sstype : Option String

/-- `ReducedOrderModel.initialise`: attach the full system and classify it
as continuous or discrete time. -/
def initialise {n : ℕ} {K : Type} (st : ROM n K) (ss : LinSys n K) :
    ROM n K :=
  { st with
    ss := some ss
    sstype := some (if ss.dt = none then (r"ct") else (r"dt")) }

/-- `ReducedOrderModel.one_sided_arnoldi(frequency, r)`: Pade construction
at a finite point (`frequency != np.inf and frequency is not None`),
partial realisation otherwise; then `Ar = V.T A V`, `Br = V.T B`,
`Cr = C V`.  An array-valued `frequency` makes the branch condition an
ambiguous array truth value in numpy (a raised `ValueError`). -/
def one_sided_arnoldi {n : ℕ} {K : Type} [RCLike K] (ss : LinSys n K)
    (frequency : Freq K) (r : ℕ) :
    Except RunErr
      (Matrix (Fin r) (Fin r) K × (Fin r → K) × (Fin r → K)) :=
  match frequency with
  | .fval σ =>
    let V := constructKrylov r (σ • (1 : Matrix (Fin n) (Fin n) K) - ss.A)
      ss.B (r"Pade") (r"b")
    .ok (Vᵀ * ss.A * V, Vᵀ *ᵥ ss.B, ss.C ᵥ* V)
  | .flist _ => .error .valueError
  | _ =>
    let V := constructKrylov r ss.A ss.B (r"partial_realisation") (r"b")
    .ok (Vᵀ * ss.A * V, Vᵀ *ᵥ ss.B, ss.C ᵥ* V)

/-- `ReducedOrderModel.two_sided_arnoldi(frequency, r)`: two bases seeded
from `B` and `C.T`, the biorthogonalisation correction, then
`Ar = W.T A V`, `Br = W.T B`, `Cr = C V`. -/
def two_sided_arnoldi {n : ℕ} {K : Type} [RCLike K] (ss : LinSys n K)
    (frequency : Freq K) (r : ℕ) :
    Except RunErr
      (Matrix (Fin r) (Fin r) K × (Fin r → K) × (Fin r → K)) :=
  match frequency with
  | .fval σ =>
    let lu_A := σ • (1 : Matrix (Fin n) (Fin n) K) - ss.A
    let V := constructKrylov r lu_A ss.B (r"Pade") (r"b")
    let W := biorthonormalise (constructKrylov r lu_A ss.C (r"Pade") (r"c")) V
    .ok (Wᵀ * ss.A * V, Wᵀ *ᵥ ss.B, ss.C ᵥ* V)
  | .flist _ => .error .valueError
  | _ =>
    let V := constructKrylov r ss.A ss.B (r"partial_realisation") (r"b")
    let W := biorthonormalise
      (constructKrylov r ss.A ss.C (r"partial_realisation") (r"c")) V
    .ok (Wᵀ * ss.A * V, Wᵀ *ᵥ ss.B, ss.C ᵥ* V)

/-- The concatenated block basis of `dual_rational_arnoldi_siso`: column
`i*r + j` is column `j` of the Pade basis at the `i`-th interpolation
point (`V[:, we:we+r] = construct_krylov(r, sigma_i I - A, seed, 'Pade', side)`
with `we = i*r`). -/
def blockKrylov {n : ℕ} {K : Type} [RCLike K] (r : ℕ) (sigmas : List K)
    (A : Matrix (Fin n) (Fin n) K) (seed : Fin n → K) (side : String) :
    Matrix (Fin n) (Fin (r * sigmas.length)) K :=
  Matrix.of fun x c =>
    if h : 0 < r then
      constructKrylov r
        ((sigmas.getD (c.val / r) 0) • (1 : Matrix (Fin n) (Fin n) K) - A)
        seed (r"Pade") side x ⟨c.val % r, Nat.mod_lt _ h⟩
    else 0

/-- `ReducedOrderModel.dual_rational_arnoldi_siso(frequency, r)`: requires
an array of more than one interpolation point (`nfreq` falls back to `1`
when `frequency` has no `.shape`, and `assert nfreq > 1` fails); builds the
two concatenated block bases, applies the biorthogonalisation correction,
and forms the reduced matrices of order `r * nfreq`. -/
def dual_rational_arnoldi_siso {n : ℕ} {K : Type} [RCLike K]
    (ss : LinSys n K) (frequency : Freq K) (r : ℕ) :
    Except RunErr
      ((k : ℕ) × (Matrix (Fin k) (Fin k) K × (Fin k → K) × (Fin k → K))) :=
  match frequency with
  | .flist l =>
    if 1 < l.length then
      let V := blockKrylov r l ss.A ss.B (r"b")
      let W := biorthonormalise (blockKrylov r l ss.A ss.C (r"c")) V
      .ok ⟨r * l.length, (Wᵀ * ss.A * V, Wᵀ *ᵥ ss.B, ss.C ᵥ* V)⟩
    else .error .assertionError
  | _ => .error .assertionError

/-- `ReducedOrderModel.real_rational_arnoldi(frequency, r)`: raises
`NotImplementedError` as its first statement. -/
def real_rational_arnoldi {K : Type} (_frequency : Freq K) (_r : ℕ) :
    Except RunErr Unit :=
  .error .notImplementedReal

/-- `ReducedOrderModel.run(algorithm, r, frequency)`: store the call
arguments on the object, dispatch on the algorithm name, and on success
store `libss.ss(Ar, Br, Cr, self.ss.D, self.ss.dt)` as `self.ssrom`.  The
second component is the raised exception, if any; the first is the state
of the object afterwards (`self.algorithm`, `self.frequency`, `self.r` are
assigned before the dispatch, so they are updated even when the dispatch
raises). -/
def run {n : ℕ} {K : Type} [RCLike K] (st : ROM n K) (algorithm : String)
    (r : ℕ) (frequency : Freq K) : ROM n K × Option RunErr :=
  let st1 : ROM n K :=
    { st with
      algorithm := some algorithm
      frequency := some frequency
      r := r }
  if algorithm == (r"arnoldi") then
    match st1.ss with
    | none => (st1, some .attributeError)
    | some ss =>
      match one_sided_arnoldi ss frequency r with
      | .error e => (st1, some e)
      | .ok (Ar, Br, Cr) =>
        ({ st1 with ssrom := some ⟨r, Ar, Br, Cr, ss.D, ss.dt⟩ }, none)
  else if algorithm == (r"two_sided_arnoldi") then
    match st1.ss with
    | none => (st1, some .attributeError)
    | some ss =>
      match two_sided_arnoldi ss frequency r with
      | .error e => (st1, some e)
      | .ok (Ar, Br, Cr) =>
        ({ st1 with ssrom := some ⟨r, Ar, Br, Cr, ss.D, ss.dt⟩ }, none)
  else if algorithm == (r"dual_rational_arnoldi") then
    match st1.ss with
    | none => (st1, some .attributeError)
    | some ss =>
      match dual_rational_arnoldi_siso ss frequency r with
      | .error e => (st1, some e)
      | .ok ⟨k, (Ar, Br, Cr)⟩ =>
        ({ st1 with ssrom := some ⟨k, Ar, Br, Cr, ss.D, ss.dt⟩ }, none)
  else if algorithm == (r"real_rational_arnoldi") then
    match real_rational_arnoldi (K := K) frequency r with
    | .error e => (st1, some e)
    | .ok _ => (st1, none)
  else
    (st1, some (.notRecognised algorithm))

/-! ### Concrete systems used in closed witness and counterexample theorems -/

/-- A 2-state rotation-like system used to witness the moment-matching
claim. -/
def exA2 : Matrix (Fin 2) (Fin 2) ℝ := !![0, 1; -1, 0]

/-- Input vector of the 2-state witness system. -/
def exB2 : Fin 2 → ℝ := ![1, 0]

/-- Output vector of the 2-state witness system. -/
def exC2 : Fin 2 → ℝ := ![1, 1]

/-- The assembled 2-state witness system. -/
def exSys2 : LinSys 2 ℝ := ⟨exA2, exB2, exC2, 0, none⟩

/-- A 2-state exchange matrix used to witness basis orthonormality. -/
def exA3 : Matrix (Fin 2) (Fin 2) ℝ := !![0, 1; 1, 0]

/-- Seed vector for the orthonormality witness. -/
def exB3 : Fin 2 → ℝ := ![1, 0]

/-- A complex operator (zero matrix) for the complex counterexample. -/
def exAC : Matrix (Fin 2) (Fin 2) ℂ := 0

/-- A genuinely complex seed vector: its plain-transpose self product
vanishes even though its norm is nonzero. -/
def exBC : Fin 2 → ℂ := ![1, Complex.I]

/-- A non-symmetric invertible shifted operator for exhibiting the
transpose-mode discrepancy of the output-side Pade construction. -/
def exM6 : Matrix (Fin 2) (Fin 2) ℝ := !![1, 1; 0, 1]

/-- Explicit inverse of exM6. -/
def exM6inv : Matrix (Fin 2) (Fin 2) ℝ := !![1, -1; 0, 1]

/-- Explicit inverse of the transpose of exM6. -/
def exM6tinv : Matrix (Fin 2) (Fin 2) ℝ := !![1, 0; -1, 1]

/-- Seed vector for the transpose-mode discrepancy. -/
def exB6 : Fin 2 → ℝ := ![0, 1]

/-- A healthy 1-state system. -/
def exSys1 : LinSys 1 ℝ := ⟨!![2], ![1], ![3], 4, none⟩

/-- Driver state with the 1-state system attached and no stored reduced
model. -/
def exState1 : ROM 1 ℝ := ⟨some exSys1, none, none, none, 100, none⟩

/-- A 1-state system whose input vector is exactly zero. -/
def exSysZ : LinSys 1 ℝ := ⟨!![2], ![0], ![1], 0, none⟩

/-- Driver state with the zero-input system attached. -/
def exStateZ : ROM 1 ℝ := ⟨some exSysZ, none, none, none, 100, none⟩

/-- A previously stored (stale) reduced model. -/
def exOldRed : RedSys ℝ := ⟨0, 1, 0, 0, 7, none⟩

/-- A discrete-time 1-state system with nontrivial D and sample interval. -/
def exSys9 : LinSys 1 ℝ := ⟨!![2], ![1], ![3], 5, some (1 / 10)⟩

/-- Driver state holding exSys9 and a stale reduced model, for the
carry-through/replacement claim. -/
def exState9 : ROM 1 ℝ := ⟨some exSys9, some exOldRed, none, none, 100, none⟩

/-! ### Dot-product and Gram–Schmidt helper lemmas -/

theorem dotProduct_finsum {n : ℕ} {K : Type} [RCLike K] (u : Fin n → K)
    (s : Finset ℕ) (g : ℕ → Fin n → K) :
    u ⬝ᵥ (∑ i ∈ s, g i) = ∑ i ∈ s, u ⬝ᵥ g i := by
  simp only [dotProduct, Finset.sum_apply, Finset.mul_sum]
  exact Finset.sum_comm

theorem dot_gsOnce {n : ℕ} {K : Type} [RCLike K] (V : ℕ → Fin n → K) (m : ℕ)
    (w u : Fin n → K) :
    u ⬝ᵥ gsOnce V m w =
      u ⬝ᵥ w - ∑ i ∈ Finset.range m, (V i ⬝ᵥ w) * (u ⬝ᵥ V i) := by
  rw [gsOnce, dotProduct_sub, dotProduct_finsum]
  congr 1
  exact Finset.sum_congr rfl fun i _ => by rw [dotProduct_smul, smul_eq_mul]

theorem gsOnce_perp {n : ℕ} {K : Type} [RCLike K] (V : ℕ → Fin n → K) (m : ℕ)
    (w : Fin n → K)
    (hV : ∀ i i', i < m → i' < m → V i ⬝ᵥ V i' = if i = i' then 1 else 0)
    (i0 : ℕ) (hi0 : i0 < m) : V i0 ⬝ᵥ gsOnce V m w = 0 := by
  rw [dot_gsOnce]
  have h1 : ∀ i ∈ Finset.range m,
      (V i ⬝ᵥ w) * (V i0 ⬝ᵥ V i) = if i = i0 then V i0 ⬝ᵥ w else 0 := by
    intro i hi
    rw [Finset.mem_range] at hi
    rw [hV i0 i hi0 hi]
    by_cases h : i = i0
    · subst h
      simp
    · have h' : ¬ i0 = i := fun hh => h hh.symm
      simp [h, h']
  rw [Finset.sum_congr rfl h1, Finset.sum_ite_eq' (Finset.range m) i0]
  simp [Finset.mem_range.mpr hi0]

theorem gsTwice_perp {n : ℕ} {K : Type} [RCLike K] (V : ℕ → Fin n → K)
    (m : ℕ) (w : Fin n → K)
    (hV : ∀ i i', i < m → i' < m → V i ⬝ᵥ V i' = if i = i' then 1 else 0)
    (i0 : ℕ) (hi0 : i0 < m) : V i0 ⬝ᵥ gsTwice V m w = 0 := by
  rw [gsTwice]
  exact gsOnce_perp V m _ hV i0 hi0

/-! ### Unfolding the Arnoldi iteration -/

theorem arnoldiIter_zero {n : ℕ} {K : Type} [RCLike K]
    (op : (Fin n → K) → Fin n → K) (v0 f0 : Fin n → K) :
    arnoldiIter op v0 f0 0 =
      (Function.update (fun _ => (0 : Fin n → K)) 0 v0, f0) := rfl

theorem arnoldiIter_succ {n : ℕ} {K : Type} [RCLike K]
    (op : (Fin n → K) → Fin n → K) (v0 f0 : Fin n → K) (k : ℕ) :
    arnoldiIter op v0 f0 (k + 1) =
      arnoldiStep op k (arnoldiIter op v0 f0 k) := rfl

theorem arnoldiCols_succ {n : ℕ} {K : Type} [RCLike K]
    (op : (Fin n → K) → Fin n → K) (v0 f0 : Fin n → K) (k i : ℕ)
    (h : i ≤ k) :
    (arnoldiIter op v0 f0 (k + 1)).1 i = (arnoldiIter op v0 f0 k).1 i := by
  rw [arnoldiIter_succ]
  simp only [arnoldiStep]
  exact Function.update_noteq (by omega) _ _

theorem arnoldiCols_stable {n : ℕ} {K : Type} [RCLike K]
    (op : (Fin n → K) → Fin n → K) (v0 f0 : Fin n → K) (i k k2 : ℕ)
    (h : i ≤ k) (h2 : k ≤ k2) :
    (arnoldiIter op v0 f0 k2).1 i = (arnoldiIter op v0 f0 k).1 i := by
  induction k2, h2 using Nat.le_induction with
  | base => rfl
  | succ m hm ih => rw [arnoldiCols_succ op v0 f0 m i (le_trans h hm), ih]

theorem arnoldiCols_zero {n : ℕ} {K : Type} [RCLike K]
    (op : (Fin n → K) → Fin n → K) (v0 f0 : Fin n → K) (k : ℕ) :
    (arnoldiIter op v0 f0 k).1 0 = v0 := by
  rw [arnoldiCols_stable op v0 f0 0 0 k le_rfl (Nat.zero_le k),
    arnoldiIter_zero]
  simp

theorem arnoldiCols_newcol {n : ℕ} {K : Type} [RCLike K]
    (op : (Fin n → K) → Fin n → K) (v0 f0 : Fin n → K) (j k : ℕ)
    (h : j + 1 ≤ k) :
    (arnoldiIter op v0 f0 k).1 (j + 1) =
      normStep ((arnoldiIter op v0 f0 j).2) := by
  rw [arnoldiCols_stable op v0 f0 (j + 1) (j + 1) k le_rfl h,
    arnoldiIter_succ]
  simp only [arnoldiStep]
  exact Function.update_same _ _ _

theorem arnoldiRes_succ {n : ℕ} {K : Type} [RCLike K]
    (op : (Fin n → K) → Fin n → K) (v0 f0 : Fin n → K) (k : ℕ) :
    (arnoldiIter op v0 f0 (k + 1)).2 =
      gsTwice ((arnoldiIter op v0 f0 (k + 1)).1) (k + 2)
        (op (normStep ((arnoldiIter op v0 f0 k).2))) := by
  rw [arnoldiIter_succ]
  simp only [arnoldiStep]

/-! ### The numpy norm over the reals -/

theorem npNorm_real {n : ℕ} (f : Fin n → ℝ) :
    npNorm f = Real.sqrt (f ⬝ᵥ f) := by
  rw [npNorm]
  congr 1
  simp only [dotProduct, Real.norm_eq_abs, sq_abs, sq, abs_mul_abs_self]

theorem dotSelf_nonneg {n : ℕ} (f : Fin n → ℝ) : 0 ≤ f ⬝ᵥ f :=
  Finset.sum_nonneg fun _ _ => mul_self_nonneg _

theorem dotSelf_pos {n : ℕ} (f : Fin n → ℝ) (hf : f ≠ 0) : 0 < f ⬝ᵥ f :=
  lt_of_le_of_ne (dotSelf_nonneg f)
    fun h => hf (dotProduct_self_eq_zero.mp h.symm)

theorem npNorm_ne_zero {n : ℕ} (f : Fin n → ℝ) (hf : f ≠ 0) :
    npNorm f ≠ 0 := by
  rw [npNorm_real]
  exact (Real.sqrt_pos.mpr (dotSelf_pos f hf)).ne'

theorem normStep_real {n : ℕ} (f : Fin n → ℝ) :
    normStep f = (npNorm f)⁻¹ • f := by
  rw [normStep]
  norm_num

theorem normStep_dot_self {n : ℕ} (f : Fin n → ℝ) (hf : f ≠ 0) :
    normStep f ⬝ᵥ normStep f = 1 := by
  have hd := dotSelf_pos f hf
  rw [normStep_real, smul_dotProduct, dotProduct_smul, smul_eq_mul,
    smul_eq_mul, npNorm_real, ← mul_assoc, ← mul_inv,
    Real.mul_self_sqrt hd.le, inv_mul_cancel₀ hd.ne']

theorem normStep_recover {n : ℕ} (f : Fin n → ℝ) (hf : f ≠ 0) :
    npNorm f • normStep f = f := by
  rw [normStep_real, smul_smul, mul_inv_cancel₀ (npNorm_ne_zero f hf),
    one_smul]

theorem normStep_of_dot_one {n : ℕ} (f : Fin n → ℝ) (h : f ⬝ᵥ f = 1) :
    normStep f = f := by
  rw [normStep_real, npNorm_real, h, Real.sqrt_one, inv_one, one_smul]

/-! ### The orthonormality invariant of the real Arnoldi iteration -/

theorem arnoldi_inv {n : ℕ} (op : (Fin n → ℝ) → Fin n → ℝ)
    (v0 f0 : Fin n → ℝ) (hv : v0 ⬝ᵥ v0 = 1) (hf : v0 ⬝ᵥ f0 = 0) :
    ∀ k, (∀ j, j < k → (arnoldiIter op v0 f0 j).2 ≠ 0) →
      (∀ i i', i ≤ k → i' ≤ k →
        (arnoldiIter op v0 f0 k).1 i ⬝ᵥ (arnoldiIter op v0 f0 k).1 i' =
          if i = i' then 1 else 0) ∧
      ∀ i, i ≤ k →
        (arnoldiIter op v0 f0 k).1 i ⬝ᵥ (arnoldiIter op v0 f0 k).2 = 0 := by
  intro k
  induction k with
  | zero =>
    intro _
    constructor
    · intro i i' hi hi'
      obtain rfl : i = 0 := Nat.le_zero.mp hi
      obtain rfl : i' = 0 := Nat.le_zero.mp hi'
      rw [arnoldiCols_zero]
      simpa using hv
    · intro i hi
      obtain rfl : i = 0 := Nat.le_zero.mp hi
      rw [arnoldiCols_zero, arnoldiIter_zero]
      exact hf
  | succ k ih =>
    intro hres
    obtain ⟨Ho, Hp⟩ := ih fun j hj => hres j (Nat.lt_succ_of_lt hj)
    have hfk : (arnoldiIter op v0 f0 k).2 ≠ 0 := hres k (Nat.lt_succ_self k)
    have hnew : (arnoldiIter op v0 f0 (k + 1)).1 (k + 1) =
        normStep ((arnoldiIter op v0 f0 k).2) :=
      arnoldiCols_newcol op v0 f0 k (k + 1) le_rfl
    have hold : ∀ i, i ≤ k →
        (arnoldiIter op v0 f0 (k + 1)).1 i = (arnoldiIter op v0 f0 k).1 i :=
      fun i hi => arnoldiCols_succ op v0 f0 k i hi
    have hcross : ∀ i', i' ≤ k →
        normStep ((arnoldiIter op v0 f0 k).2) ⬝ᵥ
          (arnoldiIter op v0 f0 k).1 i' = 0 := by
      intro i' hi'
      rw [normStep_real, smul_dotProduct, smul_eq_mul,
        dotProduct_comm, Hp i' hi', mul_zero]
    have Ho' : ∀ i i', i ≤ k + 1 → i' ≤ k + 1 →
        (arnoldiIter op v0 f0 (k + 1)).1 i ⬝ᵥ
          (arnoldiIter op v0 f0 (k + 1)).1 i' = if i = i' then 1 else 0 := by
      intro i i' hi hi'
      by_cases ci : i = k + 1 <;> by_cases ci' : i' = k + 1
      · subst ci
        subst ci'
        rw [hnew, normStep_dot_self _ hfk]
        simp
      · subst ci
        have hi'k : i' ≤ k := by omega
        rw [hnew, hold i' hi'k, hcross i' hi'k]
        simp [Ne.symm ci']
      · subst ci'
        have hik : i ≤ k := by omega
        rw [hnew, hold i hik, dotProduct_comm, hcross i hik]
        simp [ci]
      · have hik : i ≤ k := by omega
        have hi'k : i' ≤ k := by omega
        rw [hold i hik, hold i' hi'k]
        exact Ho i i' hik hi'k
    refine ⟨Ho', ?_⟩
    intro i hi
    rw [arnoldiRes_succ]
    exact gsTwice_perp _ _ _
      (fun a b ha hb => Ho' a b (by omega) (by omega)) i (by omega)

/-! ### Branch selection inside construct_krylov -/

theorem krylovInitV_pr {n : ℕ} {K : Type} [RCLike K]
    (lu_A : Matrix (Fin n) (Fin n) K) (B : Fin n → K) (side : String) :
    krylovInitV lu_A B (r"partial_realisation") side = B := by
  simp [krylovInitV]

theorem krylovV0_pr {n : ℕ} {K : Type} [RCLike K]
    (lu_A : Matrix (Fin n) (Fin n) K) (B : Fin n → K) (side : String) :
    krylovV0 lu_A B (r"partial_realisation") side = normStep B := by
  rw [krylovV0, krylovInitV_pr]

theorem krylovW0_pr {n : ℕ} {K : Type} [RCLike K]
    (lu_A : Matrix (Fin n) (Fin n) K) (B : Fin n → K) (side : String) :
    krylovW0 lu_A B (r"partial_realisation") side = lu_A *ᵥ normStep B := by
  rw [krylovW0, krylovV0_pr]
  simp

theorem krylovF0_pr {n : ℕ} {K : Type} [RCLike K]
    (lu_A : Matrix (Fin n) (Fin n) K) (B : Fin n → K) (side : String) :
    krylovF0 lu_A B (r"partial_realisation") side =
      lu_A *ᵥ normStep B -
        (normStep B ⬝ᵥ (lu_A *ᵥ normStep B)) • normStep B := by
  rw [krylovF0, krylovV0_pr, krylovW0_pr]

theorem krylovOp_pr {n : ℕ} {K : Type} [RCLike K]
    (lu_A : Matrix (Fin n) (Fin n) K) (side : String) :
    krylovOp lu_A (r"partial_realisation") side = fun u => lu_A *ᵥ u := by
  funext u
  simp [krylovOp]

theorem krylovInitV_pade {n : ℕ} {K : Type} [RCLike K]
    (lu_A : Matrix (Fin n) (Fin n) K) (B : Fin n → K) (side : String) :
    krylovInitV lu_A B (r"Pade") side =
      luSolve (luFactor lu_A) B (side == (r"c")) := by
  simp [krylovInitV]

theorem krylovW0_pade {n : ℕ} {K : Type} [RCLike K]
    (lu_A : Matrix (Fin n) (Fin n) K) (B : Fin n → K) (side : String) :
    krylovW0 lu_A B (r"Pade") side =
      luSolve (luFactor lu_A) (krylovV0 lu_A B (r"Pade") side) false := by
  simp [krylovW0]

theorem krylovOp_pade {n : ℕ} {K : Type} [RCLike K]
    (lu_A : Matrix (Fin n) (Fin n) K) (side : String) :
    krylovOp lu_A (r"Pade") side =
      fun u => luSolve (luFactor lu_A) u (side == (r"c")) := by
  funext u
  simp [krylovOp]

/-! ### Residual decomposition and span of the Krylov columns -/

theorem gsTwice_decomp {n : ℕ} {K : Type} [RCLike K] (V : ℕ → Fin n → K)
    (m : ℕ) (w : Fin n → K) :
    ∃ d : ℕ → K, gsTwice V m w = w - ∑ i ∈ Finset.range m, d i • V i := by
  refine ⟨fun i => (V i ⬝ᵥ w) + (V i ⬝ᵥ gsOnce V m w), ?_⟩
  simp only [gsTwice, gsOnce, add_smul, Finset.sum_add_distrib]
  abel

theorem arnoldi_res_recover {n : ℕ} (op : (Fin n → ℝ) → Fin n → ℝ)
    (v0 f0 : Fin n → ℝ) (j k : ℕ) (h : j + 1 ≤ k)
    (hj : (arnoldiIter op v0 f0 j).2 ≠ 0) :
    (arnoldiIter op v0 f0 j).2 =
      npNorm ((arnoldiIter op v0 f0 j).2) •
        (arnoldiIter op v0 f0 k).1 (j + 1) := by
  rw [arnoldiCols_newcol op v0 f0 j k h, normStep_recover _ hj]

theorem arnoldi_op_col {n : ℕ} (op : (Fin n → ℝ) → Fin n → ℝ)
    (v0 f0 : Fin n → ℝ)
    (hf0 : f0 = op v0 - (v0 ⬝ᵥ op v0) • v0) (k : ℕ)
    (hres : ∀ j, j < k → (arnoldiIter op v0 f0 j).2 ≠ 0) (i : ℕ)
    (hi : i < k) :
    op ((arnoldiIter op v0 f0 k).1 i) ∈
      Submodule.span ℝ ((arnoldiIter op v0 f0 k).1 '' Set.Iic (i + 1)) := by
  cases i with
  | zero =>
    have hf0ne : (arnoldiIter op v0 f0 0).2 ≠ 0 := hres 0 hi
    have hrec := arnoldi_res_recover op v0 f0 0 k hi hf0ne
    have h0 : (arnoldiIter op v0 f0 0).2 = f0 := rfl
    rw [h0] at hrec hf0ne
    have hov : op ((arnoldiIter op v0 f0 k).1 0) =
        npNorm f0 • (arnoldiIter op v0 f0 k).1 1 +
          (v0 ⬝ᵥ op v0) • (arnoldiIter op v0 f0 k).1 0 := by
      rw [arnoldiCols_zero]
      rw [← hrec]
      rw [hf0]
      abel
    rw [hov]
    exact Submodule.add_mem _
      (Submodule.smul_mem _ _
        (Submodule.subset_span ⟨1, Set.mem_Iic.mpr (by omega), rfl⟩))
      (Submodule.smul_mem _ _
        (Submodule.subset_span ⟨0, Set.mem_Iic.mpr (by omega), rfl⟩))
  | succ j =>
    obtain ⟨d, hd⟩ := gsTwice_decomp ((arnoldiIter op v0 f0 (j + 1)).1)
      (j + 2) (op (normStep ((arnoldiIter op v0 f0 j).2)))
    have hrs := arnoldiRes_succ op v0 f0 j
    rw [hd] at hrs
    have hcol : (arnoldiIter op v0 f0 k).1 (j + 1) =
        normStep ((arnoldiIter op v0 f0 j).2) :=
      arnoldiCols_newcol op v0 f0 j k (by omega)
    have hov : op ((arnoldiIter op v0 f0 k).1 (j + 1)) =
        (arnoldiIter op v0 f0 (j + 1)).2 +
          ∑ t ∈ Finset.range (j + 2), d t •
            (arnoldiIter op v0 f0 (j + 1)).1 t := by
      rw [hcol, hrs]
      abel
    have hsum : ∀ t ∈ Finset.range (j + 2),
        (arnoldiIter op v0 f0 (j + 1)).1 t = (arnoldiIter op v0 f0 k).1 t := by
      intro t ht
      rw [Finset.mem_range] at ht
      exact (arnoldiCols_stable op v0 f0 t (j + 1) k (by omega) (by omega)).symm
    have hrec := arnoldi_res_recover op v0 f0 (j + 1) k (by omega)
      (hres (j + 1) hi)
    rw [hov, hrec]
    refine Submodule.add_mem _
      (Submodule.smul_mem _ _
        (Submodule.subset_span ⟨j + 2, Set.mem_Iic.mpr (by omega), rfl⟩))
      (Submodule.sum_mem _ ?_)
    intro t ht
    rw [hsum t ht]
    rw [Finset.mem_range] at ht
    exact Submodule.smul_mem _ _
      (Submodule.subset_span ⟨t, Set.mem_Iic.mpr (by omega), rfl⟩)

theorem arnoldi_pow_span {n : ℕ} (A : Matrix (Fin n) (Fin n) ℝ)
    (v0 f0 b : Fin n → ℝ) (hv0 : v0 = normStep b) (hb : b ≠ 0)
    (hf0 : f0 = A *ᵥ v0 - (v0 ⬝ᵥ (A *ᵥ v0)) • v0) (k : ℕ)
    (hres : ∀ j, j < k → (arnoldiIter (fun u => A *ᵥ u) v0 f0 j).2 ≠ 0)
    (m : ℕ) (hm : m ≤ k) :
    (A ^ m) *ᵥ b ∈
      Submodule.span ℝ
        ((arnoldiIter (fun u => A *ᵥ u) v0 f0 k).1 '' Set.Iic m) := by
  induction m with
  | zero =>
    have hb' : b = npNorm b • (arnoldiIter (fun u => A *ᵥ u) v0 f0 k).1 0 := by
      rw [arnoldiCols_zero, hv0, normStep_recover b hb]
    rw [pow_zero, one_mulVec, hb']
    exact Submodule.smul_mem _ _
      (Submodule.subset_span ⟨0, Set.mem_Iic.mpr (by omega), rfl⟩)
  | succ m ihm =>
    have hmk : m ≤ k := by omega
    have hx := ihm hmk
    have hstep : (A ^ (m + 1)) *ᵥ b = A *ᵥ ((A ^ m) *ᵥ b) := by
      rw [pow_succ', ← Matrix.mulVec_mulVec]
    rw [hstep]
    have key : ∀ x, x ∈
        Submodule.span ℝ
          ((arnoldiIter (fun u => A *ᵥ u) v0 f0 k).1 '' Set.Iic m) →
        A *ᵥ x ∈
          Submodule.span ℝ
            ((arnoldiIter (fun u => A *ᵥ u) v0 f0 k).1 ''
              Set.Iic (m + 1)) := by
      intro x hxm
      induction hxm using Submodule.span_induction with
      | mem y hy =>
        obtain ⟨t, ht, rfl⟩ := hy
        rw [Set.mem_Iic] at ht
        have hoc := arnoldi_op_col (fun u => A *ᵥ u) v0 f0 hf0 k hres t
          (by omega)
        exact Submodule.span_mono
          (Set.image_subset _ (Set.Iic_subset_Iic.mpr (by omega))) hoc
      | zero =>
        rw [Matrix.mulVec_zero]
        exact Submodule.zero_mem _
      | add y z hy hz ihy ihz =>
        rw [Matrix.mulVec_add]
        exact Submodule.add_mem _ ihy ihz
      | smul c y hy ihy =>
        rw [Matrix.mulVec_smul]
        exact Submodule.smul_mem _ _ ihy
    exact key _ hx

/-! ### Orthonormal projection and moment matching -/

theorem proj_of_orthonormal {n r : ℕ} (cols : ℕ → Fin n → ℝ) (hr : 0 < r)
    (hON : ∀ i i', i ≤ r - 1 → i' ≤ r - 1 →
      cols i ⬝ᵥ cols i' = if i = i' then 1 else 0)
    (x : Fin n → ℝ)
    (hx : x ∈ Submodule.span ℝ (cols '' Set.Iic (r - 1))) :
    (Matrix.of fun (a : Fin n) (j : Fin r) => cols j.val a) *ᵥ
      ((Matrix.of fun (a : Fin n) (j : Fin r) => cols j.val a)ᵀ *ᵥ x) =
      x := by
  induction hx using Submodule.span_induction with
  | mem y hy =>
    obtain ⟨t, ht, rfl⟩ := hy
    rw [Set.mem_Iic] at ht
    have ht2 : t < r := by omega
    have h1 : (Matrix.of fun (a : Fin n) (j : Fin r) => cols j.val a)ᵀ *ᵥ
        cols t = fun j : Fin r => if j = (⟨t, ht2⟩ : Fin r) then 1 else 0 := by
      funext j
      have hj : j.val ≤ r - 1 := by omega
      simp only [mulVec, transpose_apply, Matrix.of_apply]
      rw [hON j.val t hj ht]
      simp [Fin.ext_iff]
    have h2 : (Matrix.of fun (a : Fin n) (j : Fin r) => cols j.val a) *ᵥ
        (fun j : Fin r => if j = (⟨t, ht2⟩ : Fin r) then 1 else 0) =
        cols t := by
      funext a
      simp only [mulVec, dotProduct, Matrix.of_apply, mul_ite, mul_one,
        mul_zero]
      rw [Finset.sum_ite_eq' Finset.univ (⟨t, ht2⟩ : Fin r)]
      simp
    rw [h1, h2]
  | zero => simp
  | add y z hy hz ihy ihz =>
    rw [Matrix.mulVec_add, Matrix.mulVec_add, ihy, ihz]
  | smul c y hy ihy =>
    rw [Matrix.mulVec_smul, Matrix.mulVec_smul, ihy]

theorem krylov_cols_orthonormal {n : ℕ}
    (lu_A : Matrix (Fin n) (Fin n) ℝ) (B : Fin n → ℝ)
    (approx_type side : String) (k : ℕ)
    (h0 : krylovInitV lu_A B approx_type side ≠ 0)
    (hres : ∀ j, j < k → krylovResidual lu_A B approx_type side j ≠ 0) :
    ∀ i i', i ≤ k → i' ≤ k →
      (arnoldiIter (krylovOp lu_A approx_type side)
          (krylovV0 lu_A B approx_type side)
          (krylovF0 lu_A B approx_type side) k).1 i ⬝ᵥ
        (arnoldiIter (krylovOp lu_A approx_type side)
          (krylovV0 lu_A B approx_type side)
          (krylovF0 lu_A B approx_type side) k).1 i' =
        if i = i' then 1 else 0 := by
  have hv : krylovV0 lu_A B approx_type side ⬝ᵥ
      krylovV0 lu_A B approx_type side = 1 := by
    rw [krylovV0]
    exact normStep_dot_self _ h0
  have hf : krylovV0 lu_A B approx_type side ⬝ᵥ
      krylovF0 lu_A B approx_type side = 0 := by
    rw [krylovF0, dotProduct_sub, dotProduct_smul, smul_eq_mul, hv, mul_one,
      sub_self]
  exact (arnoldi_inv _ _ _ hv hf k hres).1

theorem constructKrylov_VtV {n r : ℕ}
    (lu_A : Matrix (Fin n) (Fin n) ℝ) (B : Fin n → ℝ)
    (approx_type side : String)
    (h0 : krylovInitV lu_A B approx_type side ≠ 0)
    (hres : ∀ j, j < r - 1 → krylovResidual lu_A B approx_type side j ≠ 0) :
    (constructKrylov r lu_A B approx_type side)ᵀ *
      constructKrylov r lu_A B approx_type side = 1 := by
  have hON := krylov_cols_orthonormal lu_A B approx_type side (r - 1) h0 hres
  ext j j'
  have hj := j.isLt
  have hj' := j'.isLt
  have hd := hON j.val j'.val (by omega) (by omega)
  rw [dotProduct] at hd
  rw [Matrix.mul_apply, Matrix.one_apply]
  simp only [constructKrylov, transpose_apply, Matrix.of_apply]
  rw [hd]
  simp [Fin.ext_iff]

theorem moment_match_aux {n r : ℕ} (A : Matrix (Fin n) (Fin n) ℝ)
    (b c v0 f0 : Fin n → ℝ) (hb : b ≠ 0) (hv0 : v0 = normStep b)
    (hf0 : f0 = A *ᵥ v0 - (v0 ⬝ᵥ (A *ᵥ v0)) • v0)
    (hres : ∀ j, j < r - 1 → (arnoldiIter (fun u => A *ᵥ u) v0 f0 j).2 ≠ 0)
    (V : Matrix (Fin n) (Fin r) ℝ)
    (hV : V = Matrix.of fun (a : Fin n) (j : Fin r) =>
      (arnoldiIter (fun u => A *ᵥ u) v0 f0 (r - 1)).1 j.val a)
    (k : ℕ) (hk : k < r) :
    (c ᵥ* V) ⬝ᵥ (((Vᵀ * A * V) ^ k) *ᵥ (Vᵀ *ᵥ b)) =
      c ⬝ᵥ ((A ^ k) *ᵥ b) := by
  have hr : 0 < r := by omega
  have hv : v0 ⬝ᵥ v0 = 1 := by
    rw [hv0]
    exact normStep_dot_self _ hb
  have hf : v0 ⬝ᵥ f0 = 0 := by
    rw [hf0, dotProduct_sub, dotProduct_smul, smul_eq_mul, hv, mul_one,
      sub_self]
  have hON := (arnoldi_inv (fun u => A *ᵥ u) v0 f0 hv hf (r - 1) hres).1
  have hproj : ∀ m, m ≤ r - 1 → V *ᵥ (Vᵀ *ᵥ ((A ^ m) *ᵥ b)) =
      (A ^ m) *ᵥ b := by
    intro m hm
    have hsp := Submodule.span_mono
      (Set.image_subset _ (Set.Iic_subset_Iic.mpr hm))
      (arnoldi_pow_span A v0 f0 b hv0 hb hf0 (r - 1) hres m hm)
    rw [hV]
    exact proj_of_orthonormal _ hr (fun i i' hi hi' => hON i i' hi hi') _ hsp
  have hM : ∀ m, m < r → ((Vᵀ * A * V) ^ m) *ᵥ (Vᵀ *ᵥ b) =
      Vᵀ *ᵥ ((A ^ m) *ᵥ b) := by
    intro m
    induction m with
    | zero =>
      intro _
      rw [pow_zero, pow_zero, one_mulVec, one_mulVec]
    | succ m ihm =>
      intro hm1
      rw [pow_succ', ← Matrix.mulVec_mulVec, ihm (by omega),
        Matrix.mul_assoc, ← Matrix.mulVec_mulVec, ← Matrix.mulVec_mulVec,
        hproj m (by omega), pow_succ', ← Matrix.mulVec_mulVec]
  rw [hM k hk, ← Matrix.dotProduct_mulVec, hproj k (by omega)]

/-! ### Claim theorems -/

/-- C1: for every single-input single-output LinearSystem and every order
r ≤ n, running the one-sided reduction at the interpolation point infinity
(partial realisation) with no Krylov breakdown (nonzero seed, no vanishing
residual norm) yields reduced matrices with Cr . Ar^k . Br = C . A^k . B
for every k in 0..r-1, in exact arithmetic. -/
theorem C1_one_sided_infinity_markov {n r : ℕ} (ss : LinSys n ℝ)
    (_hr : r ≤ n) (hb : ss.B ≠ 0)
    (hres : ∀ j, j < r - 1 →
      krylovResidual ss.A ss.B (r"partial_realisation") (r"b") j ≠ 0)
    (Ar : Matrix (Fin r) (Fin r) ℝ) (Br Cr : Fin r → ℝ)
    (hrun : one_sided_arnoldi ss Freq.finf r = .ok (Ar, Br, Cr))
    (k : ℕ) (hk : k < r) :
    Cr ⬝ᵥ ((Ar ^ k) *ᵥ Br) = ss.C ⬝ᵥ ((ss.A ^ k) *ᵥ ss.B) := by
  have hdef : one_sided_arnoldi ss Freq.finf r =
      .ok ((constructKrylov r ss.A ss.B (r"partial_realisation") (r"b"))ᵀ *
            ss.A * constructKrylov r ss.A ss.B (r"partial_realisation") (r"b"),
          (constructKrylov r ss.A ss.B (r"partial_realisation") (r"b"))ᵀ *ᵥ
            ss.B,
          ss.C ᵥ* constructKrylov r ss.A ss.B (r"partial_realisation")
            (r"b")) := rfl
  rw [hdef] at hrun
  have htriple := Except.ok.inj hrun
  rw [Prod.mk.injEq, Prod.mk.injEq] at htriple
  obtain ⟨hA, hB, hC⟩ := htriple
  subst hA
  subst hB
  subst hC
  have hv0 : krylovV0 ss.A ss.B (r"partial_realisation") (r"b") =
      normStep ss.B := krylovV0_pr ss.A ss.B (r"b")
  have hf0 : krylovF0 ss.A ss.B (r"partial_realisation") (r"b") =
      ss.A *ᵥ krylovV0 ss.A ss.B (r"partial_realisation") (r"b") -
        (krylovV0 ss.A ss.B (r"partial_realisation") (r"b") ⬝ᵥ
          (ss.A *ᵥ krylovV0 ss.A ss.B (r"partial_realisation") (r"b"))) •
          krylovV0 ss.A ss.B (r"partial_realisation") (r"b") := by
    rw [krylovF0_pr, ← krylovV0_pr ss.A ss.B (r"b")]
  have hres' : ∀ j, j < r - 1 →
      (arnoldiIter (fun u => ss.A *ᵥ u)
        (krylovV0 ss.A ss.B (r"partial_realisation") (r"b"))
        (krylovF0 ss.A ss.B (r"partial_realisation") (r"b")) j).2 ≠ 0 := by
    intro j hj
    have h := hres j hj
    rw [krylovResidual, krylovOp_pr] at h
    exact h
  have hV : constructKrylov r ss.A ss.B (r"partial_realisation") (r"b") =
      Matrix.of fun (a : Fin n) (j : Fin r) =>
        (arnoldiIter (fun u => ss.A *ᵥ u)
          (krylovV0 ss.A ss.B (r"partial_realisation") (r"b"))
          (krylovF0 ss.A ss.B (r"partial_realisation") (r"b"))
          (r - 1)).1 j.val a := by
    simp only [constructKrylov]
    rw [krylovOp_pr]
  exact moment_match_aux ss.A ss.B ss.C _ _ hb hv0 hf0 hres' _ hV k hk

/-- Closed witness for C1: the concrete 2-state system exSys2 with r = 2
satisfies the no-breakdown hypotheses, and the reduced matrices of the
partial realisation match both Markov parameters. -/
theorem C1_witness :
    exSys2.B ≠ 0 ∧
    (∀ j, j < 2 - 1 →
      krylovResidual exSys2.A exSys2.B (r"partial_realisation") (r"b") j ≠
        0) ∧
    ∀ k, k < 2 →
      (exSys2.C ᵥ* constructKrylov 2 exSys2.A exSys2.B
          (r"partial_realisation") (r"b")) ⬝ᵥ
        ((((constructKrylov 2 exSys2.A exSys2.B (r"partial_realisation")
              (r"b"))ᵀ * exSys2.A *
            constructKrylov 2 exSys2.A exSys2.B (r"partial_realisation")
              (r"b")) ^ k) *ᵥ
          ((constructKrylov 2 exSys2.A exSys2.B (r"partial_realisation")
              (r"b"))ᵀ *ᵥ exSys2.B)) =
        exSys2.C ⬝ᵥ ((exSys2.A ^ k) *ᵥ exSys2.B) := by
  have hBval : exSys2.B = exB2 := rfl
  have hAval : exSys2.A = exA2 := rfl
  have hb : exSys2.B ≠ 0 := by
    rw [hBval]
    intro h
    have h0 := congrFun h 0
    simp [exB2] at h0
  have hdot : exB2 ⬝ᵥ exB2 = 1 := by
    simp [exB2, dotProduct, Fin.sum_univ_two]
  have hns : normStep exB2 = exB2 := normStep_of_dot_one exB2 hdot
  have hmul : exA2 *ᵥ exB2 = ![0, -1] := by
    funext i
    fin_cases i <;>
      simp [exA2, exB2, Matrix.mulVec, dotProduct, Fin.sum_univ_two]
  have halpha : exB2 ⬝ᵥ ![0, -1] = 0 := by
    simp [exB2, dotProduct, Fin.sum_univ_two]
  have hres : ∀ j, j < 2 - 1 →
      krylovResidual exSys2.A exSys2.B (r"partial_realisation") (r"b") j ≠
        0 := by
    intro j hj
    have hj0 : j = 0 := by omega
    subst hj0
    have hf0 : krylovResidual exSys2.A exSys2.B (r"partial_realisation")
        (r"b") 0 = ![0, -1] := by
      show krylovF0 exSys2.A exSys2.B (r"partial_realisation") (r"b") =
        ![0, -1]
      rw [hAval, hBval, krylovF0_pr, hns, hmul, halpha]
      simp
    rw [hf0]
    intro h
    have h1 := congrFun h 1
    simp at h1
  refine ⟨hb, hres, fun k hk =>
    C1_one_sided_infinity_markov exSys2 (by norm_num) hb hres _ _ _ rfl k hk⟩

/-- C3 (amended to real data): for real inputs, on either side and in
either Pade or partial-realisation mode, if the pre-normalisation seed is
nonzero and no residual vanishes during the iteration, the produced basis
has orthonormal columns: Vᵀ V = I in exact arithmetic.  (Over genuinely
complex data the claim fails; see the counterexample.) -/
theorem C3_basis_orthonormal_real {n r : ℕ}
    (lu_A : Matrix (Fin n) (Fin n) ℝ) (B : Fin n → ℝ)
    (approx_type side : String)
    (h0 : krylovInitV lu_A B approx_type side ≠ 0)
    (hres : ∀ j, j < r - 1 → krylovResidual lu_A B approx_type side j ≠ 0) :
    (constructKrylov r lu_A B approx_type side)ᵀ *
      constructKrylov r lu_A B approx_type side = 1 :=
  constructKrylov_VtV lu_A B approx_type side h0 hres

/-- C3 counterexample: over complex data the claim fails.  With the zero
operator and the seed (1, i) — nonzero norm, no residuals for r = 1 — the
single basis column v satisfies vᵀ v = 0, because the source normalises by
the modulus norm but orthogonalises with the plain (unconjugated)
transpose; so Vᵀ V ≠ I. -/
theorem C3_counterexample_complex :
    npNorm exBC ≠ 0 ∧
    (constructKrylov 1 exAC exBC (r"partial_realisation") (r"b"))ᵀ *
      constructKrylov 1 exAC exBC (r"partial_realisation") (r"b") ≠ 1 := by
  constructor
  · have h2 : npNorm exBC = Real.sqrt 2 := by
      simp [npNorm, exBC, Fin.sum_univ_two, Complex.norm_I]
      norm_num
    rw [h2]
    exact (Real.sqrt_pos.mpr (by norm_num)).ne'
  · have hcol : ∀ a : Fin 2,
        constructKrylov 1 exAC exBC (r"partial_realisation") (r"b") a 0 =
          normStep exBC a := by
      intro a
      simp only [constructKrylov, Matrix.of_apply]
      have hz : ((0 : Fin 1) : ℕ) = 0 := rfl
      rw [hz]
      have hc := arnoldiCols_zero
        (krylovOp exAC (r"partial_realisation") (r"b"))
        (krylovV0 exAC exBC (r"partial_realisation") (r"b"))
        (krylovF0 exAC exBC (r"partial_realisation") (r"b")) (1 - 1)
      rw [hc, krylovV0_pr]
    intro h
    have h2 : ((constructKrylov 1 exAC exBC (r"partial_realisation")
        (r"b"))ᵀ * constructKrylov 1 exAC exBC (r"partial_realisation")
        (r"b")) 0 0 = (1 : Matrix (Fin 1) (Fin 1) ℂ) 0 0 := by rw [h]
    rw [Matrix.mul_apply, Matrix.one_apply_eq] at h2
    simp only [transpose_apply, hcol] at h2
    rw [Fin.sum_univ_two] at h2
    have hval : normStep exBC 0 * normStep exBC 0 +
        normStep exBC 1 * normStep exBC 1 = 0 := by
      simp only [normStep, Pi.smul_apply, smul_eq_mul, exBC,
        Matrix.cons_val_zero, Matrix.cons_val_one, Matrix.head_cons]
      ring_nf
      rw [Complex.I_sq]
      ring
    rw [hval] at h2
    exact absurd h2 (by norm_num)

/-- Closed witness for C3 (amended): the 2-state exchange system with unit
seed and r = 2 satisfies both hypotheses, and the produced real basis is
orthonormal. -/
theorem C3_witness :
    krylovInitV exA3 exB3 (r"partial_realisation") (r"b") ≠ 0 ∧
    (∀ j, j < 2 - 1 →
      krylovResidual exA3 exB3 (r"partial_realisation") (r"b") j ≠ 0) ∧
    (constructKrylov 2 exA3 exB3 (r"partial_realisation") (r"b"))ᵀ *
      constructKrylov 2 exA3 exB3 (r"partial_realisation") (r"b") = 1 := by
  have h0 : krylovInitV exA3 exB3 (r"partial_realisation") (r"b") ≠ 0 := by
    rw [krylovInitV_pr]
    intro h
    have h1 := congrFun h 0
    simp [exB3] at h1
  have hdot : exB3 ⬝ᵥ exB3 = 1 := by
    simp [exB3, dotProduct, Fin.sum_univ_two]
  have hns : normStep exB3 = exB3 := normStep_of_dot_one exB3 hdot
  have hmul : exA3 *ᵥ exB3 = ![0, 1] := by
    funext i
    fin_cases i <;>
      simp [exA3, exB3, Matrix.mulVec, dotProduct, Fin.sum_univ_two]
  have halpha : exB3 ⬝ᵥ ![0, 1] = 0 := by
    simp [exB3, dotProduct, Fin.sum_univ_two]
  have hres : ∀ j, j < 2 - 1 →
      krylovResidual exA3 exB3 (r"partial_realisation") (r"b") j ≠ 0 := by
    intro j hj
    have hj0 : j = 0 := by omega
    subst hj0
    have hf0 : krylovResidual exA3 exB3 (r"partial_realisation") (r"b") 0 =
        ![0, 1] := by
      show krylovF0 exA3 exB3 (r"partial_realisation") (r"b") = ![0, 1]
      rw [krylovF0_pr, hns, hmul, halpha]
      simp
    rw [hf0]
    intro h
    have h1 := congrFun h 1
    simp at h1
  exact ⟨h0, hres, C3_basis_orthonormal_real exA3 exB3 _ _ h0 hres⟩

/-- C2: whenever WᵀV is invertible, the corrected basis
W' = W ((WᵀV)⁻¹)ᵀ — the correction applied by both the two-sided and the
multi-point reducer — satisfies W'ᵀ V = I exactly, so the oblique
projection is well formed. -/
theorem C2_biorthonormalise_identity {n r : ℕ} {K : Type} [RCLike K]
    (W V : Matrix (Fin n) (Fin r) K) (h : IsUnit (Wᵀ * V).det) :
    (biorthonormalise W V)ᵀ * V = 1 := by
  rw [biorthonormalise, Matrix.transpose_mul, Matrix.transpose_transpose,
    Matrix.mul_assoc, Matrix.nonsing_inv_mul _ h]

/-- Closed witness for C2 with 1-by-1 identity bases. -/
theorem C2_witness :
    IsUnit (((1 : Matrix (Fin 1) (Fin 1) ℝ))ᵀ *
      (1 : Matrix (Fin 1) (Fin 1) ℝ)).det ∧
    (biorthonormalise (1 : Matrix (Fin 1) (Fin 1) ℝ) 1)ᵀ * 1 = 1 := by
  have h : IsUnit (((1 : Matrix (Fin 1) (Fin 1) ℝ))ᵀ *
      (1 : Matrix (Fin 1) (Fin 1) ℝ)).det := by
    simp
  exact ⟨h, C2_biorthonormalise_identity 1 1 h⟩

/-- C10: passing frequency = None to the one-sided or two-sided reduction
is treated identically to passing np.inf — both take the
partial-realisation branch. -/
theorem C10_none_like_infinity {n : ℕ} {K : Type} [RCLike K]
    (ss : LinSys n K) (r : ℕ) :
    one_sided_arnoldi ss Freq.fnone r = one_sided_arnoldi ss Freq.finf r ∧
    two_sided_arnoldi ss Freq.fnone r = two_sided_arnoldi ss Freq.finf r :=
  ⟨rfl, rfl⟩

/-- C8: in Pade mode, the factor-once/solve-many construction produces, in
exact arithmetic, the same basis as the spec's description of directly
applying the shifted-operator inverse at every step (for either projection
side, hence also for each interpolation point of the multi-point
reducer, which calls this construction once per point). -/
theorem C8_pade_factor_once_eq_direct {n : ℕ} {K : Type} [RCLike K]
    (r : ℕ) (lu_A : Matrix (Fin n) (Fin n) K) (B : Fin n → K)
    (side : String) :
    constructKrylov r lu_A B (r"Pade") side =
      constructKrylovDirect r lu_A B side := by
  have hop : krylovOp lu_A (r"Pade") side =
      fun u => directSolve lu_A u (side == (r"c")) := krylovOp_pade lu_A side
  have hv0 : krylovV0 lu_A B (r"Pade") side =
      normStep (directSolve lu_A B (side == (r"c"))) := by
    rw [krylovV0, krylovInitV_pade]
    rfl
  have hf0 : krylovF0 lu_A B (r"Pade") side =
      directSolve lu_A (normStep (directSolve lu_A B (side == (r"c"))))
          false -
        (normStep (directSolve lu_A B (side == (r"c"))) ⬝ᵥ
            directSolve lu_A
              (normStep (directSolve lu_A B (side == (r"c")))) false) •
          normStep (directSolve lu_A B (side == (r"c"))) := by
    rw [krylovF0, krylovW0_pade, hv0]
    rfl
  simp only [constructKrylov, constructKrylovDirect]
  rw [hop, hv0, hf0]

/-- C6 (code bug): in the output-side Pade construction the very first
operator application — producing the second candidate vector — is the
source's lu_solve(lu_A, v) with the default trans=0 (plain inverse), while
the loop applications use the transpose solve; at the concrete operator
exM6 with seed exB6 the two actions give different vectors. -/
theorem C6_first_solve_not_transposed :
    krylovW0 exM6 exB6 (r"Pade") (r"c") =
      exM6⁻¹ *ᵥ krylovV0 exM6 exB6 (r"Pade") (r"c") ∧
    krylovOp exM6 (r"Pade") (r"c") (krylovV0 exM6 exB6 (r"Pade") (r"c")) =
      (exM6ᵀ)⁻¹ *ᵥ krylovV0 exM6 exB6 (r"Pade") (r"c") ∧
    krylovW0 exM6 exB6 (r"Pade") (r"c") ≠
      krylovOp exM6 (r"Pade") (r"c")
        (krylovV0 exM6 exB6 (r"Pade") (r"c")) := by
  have hMi : exM6⁻¹ = exM6inv := by
    refine Matrix.inv_eq_right_inv ?_
    ext i j
    fin_cases i <;> fin_cases j <;>
      simp [exM6, exM6inv, Matrix.mul_apply, Fin.sum_univ_two]
  have hMti : (exM6ᵀ)⁻¹ = exM6tinv := by
    refine Matrix.inv_eq_right_inv ?_
    ext i j
    fin_cases i <;> fin_cases j <;>
      simp [exM6, exM6tinv, Matrix.transpose, Matrix.mul_apply,
        Fin.sum_univ_two]
  have htinv_b : exM6tinv *ᵥ exB6 = exB6 := by
    funext i
    fin_cases i <;>
      simp [exM6tinv, exB6, Matrix.mulVec, dotProduct, Fin.sum_univ_two]
  have hinv_b : exM6inv *ᵥ exB6 = ![-1, 1] := by
    funext i
    fin_cases i <;>
      simp [exM6inv, exB6, Matrix.mulVec, dotProduct, Fin.sum_univ_two]
  have hdot : exB6 ⬝ᵥ exB6 = 1 := by
    simp [exB6, dotProduct, Fin.sum_univ_two]
  have hv0 : krylovV0 exM6 exB6 (r"Pade") (r"c") = exB6 := by
    rw [krylovV0, krylovInitV_pade]
    have hsolve : luSolve (luFactor exM6) exB6 ((r"c") == (r"c")) =
        exM6tinv *ᵥ exB6 := by
      rw [luSolve, luFactor]
      simp [hMti]
    rw [hsolve, htinv_b]
    exact normStep_of_dot_one exB6 hdot
  have hW0 : krylovW0 exM6 exB6 (r"Pade") (r"c") =
      exM6⁻¹ *ᵥ krylovV0 exM6 exB6 (r"Pade") (r"c") := by
    rw [krylovW0_pade]
    rfl
  have hOp : krylovOp exM6 (r"Pade") (r"c")
      (krylovV0 exM6 exB6 (r"Pade") (r"c")) =
      (exM6ᵀ)⁻¹ *ᵥ krylovV0 exM6 exB6 (r"Pade") (r"c") := by
    rw [krylovOp_pade]
    rfl
  refine ⟨hW0, hOp, ?_⟩
  rw [hW0, hOp, hv0, hMi, hMti, hinv_b, htinv_b]
  intro h
  have h0 := congrFun h 0
  simp [exB6] at h0

/-! ### Branch equations for the driver's run -/

theorem run_arnoldi_eq {n : ℕ} {K : Type} [RCLike K] (st : ROM n K)
    (ss : LinSys n K) (r : ℕ) (frequency : Freq K) (hss : st.ss = some ss)
    (Ar : Matrix (Fin r) (Fin r) K) (Br Cr : Fin r → K)
    (hok : one_sided_arnoldi ss frequency r = .ok (Ar, Br, Cr)) :
    run st (r"arnoldi") r frequency =
      ({ st with
          algorithm := some (r"arnoldi")
          frequency := some frequency
          r := r
          ssrom := some ⟨r, Ar, Br, Cr, ss.D, ss.dt⟩ }, none) := by
  unfold run
  simp only [hss, hok]
  rfl

theorem run_arnoldi_noss {n : ℕ} {K : Type} [RCLike K] (st : ROM n K)
    (r : ℕ) (frequency : Freq K) (hss : st.ss = none) :
    run st (r"arnoldi") r frequency =
      ({ st with
          algorithm := some (r"arnoldi")
          frequency := some frequency
          r := r }, some RunErr.attributeError) := by
  unfold run
  simp only [hss]
  rfl

theorem run_arnoldi_err {n : ℕ} {K : Type} [RCLike K] (st : ROM n K)
    (ss : LinSys n K) (r : ℕ) (frequency : Freq K) (hss : st.ss = some ss)
    (e : RunErr) (herr : one_sided_arnoldi ss frequency r = .error e) :
    run st (r"arnoldi") r frequency =
      ({ st with
          algorithm := some (r"arnoldi")
          frequency := some frequency
          r := r }, some e) := by
  unfold run
  simp only [hss, herr]
  rfl

theorem run_two_eq {n : ℕ} {K : Type} [RCLike K] (st : ROM n K)
    (ss : LinSys n K) (r : ℕ) (frequency : Freq K) (hss : st.ss = some ss)
    (Ar : Matrix (Fin r) (Fin r) K) (Br Cr : Fin r → K)
    (hok : two_sided_arnoldi ss frequency r = .ok (Ar, Br, Cr)) :
    run st (r"two_sided_arnoldi") r frequency =
      ({ st with
          algorithm := some (r"two_sided_arnoldi")
          frequency := some frequency
          r := r
          ssrom := some ⟨r, Ar, Br, Cr, ss.D, ss.dt⟩ }, none) := by
  unfold run
  simp only [hss, hok]
  rfl

theorem run_two_noss {n : ℕ} {K : Type} [RCLike K] (st : ROM n K)
    (r : ℕ) (frequency : Freq K) (hss : st.ss = none) :
    run st (r"two_sided_arnoldi") r frequency =
      ({ st with
          algorithm := some (r"two_sided_arnoldi")
          frequency := some frequency
          r := r }, some RunErr.attributeError) := by
  unfold run
  simp only [hss]
  rfl

theorem run_two_err {n : ℕ} {K : Type} [RCLike K] (st : ROM n K)
    (ss : LinSys n K) (r : ℕ) (frequency : Freq K) (hss : st.ss = some ss)
    (e : RunErr) (herr : two_sided_arnoldi ss frequency r = .error e) :
    run st (r"two_sided_arnoldi") r frequency =
      ({ st with
          algorithm := some (r"two_sided_arnoldi")
          frequency := some frequency
          r := r }, some e) := by
  unfold run
  simp only [hss, herr]
  rfl

theorem run_dual_eq {n : ℕ} {K : Type} [RCLike K] (st : ROM n K)
    (ss : LinSys n K) (r : ℕ) (frequency : Freq K) (hss : st.ss = some ss)
    (k : ℕ) (Ar : Matrix (Fin k) (Fin k) K) (Br Cr : Fin k → K)
    (hok : dual_rational_arnoldi_siso ss frequency r =
      .ok ⟨k, (Ar, Br, Cr)⟩) :
    run st (r"dual_rational_arnoldi") r frequency =
      ({ st with
          algorithm := some (r"dual_rational_arnoldi")
          frequency := some frequency
          r := r
          ssrom := some ⟨k, Ar, Br, Cr, ss.D, ss.dt⟩ }, none) := by
  unfold run
  simp only [hss, hok]
  rfl

theorem run_dual_noss {n : ℕ} {K : Type} [RCLike K] (st : ROM n K)
    (r : ℕ) (frequency : Freq K) (hss : st.ss = none) :
    run st (r"dual_rational_arnoldi") r frequency =
      ({ st with
          algorithm := some (r"dual_rational_arnoldi")
          frequency := some frequency
          r := r }, some RunErr.attributeError) := by
  unfold run
  simp only [hss]
  rfl

theorem run_dual_err {n : ℕ} {K : Type} [RCLike K] (st : ROM n K)
    (ss : LinSys n K) (r : ℕ) (frequency : Freq K) (hss : st.ss = some ss)
    (e : RunErr)
    (herr : dual_rational_arnoldi_siso ss frequency r = .error e) :
    run st (r"dual_rational_arnoldi") r frequency =
      ({ st with
          algorithm := some (r"dual_rational_arnoldi")
          frequency := some frequency
          r := r }, some e) := by
  unfold run
  simp only [hss, herr]
  rfl

theorem run_real_eq {n : ℕ} {K : Type} [RCLike K] (st : ROM n K) (r : ℕ)
    (frequency : Freq K) :
    run st (r"real_rational_arnoldi") r frequency =
      ({ st with
          algorithm := some (r"real_rational_arnoldi")
          frequency := some frequency
          r := r }, some RunErr.notImplementedReal) := by
  unfold run
  rfl

theorem run_unknown_eq {n : ℕ} {K : Type} [RCLike K] (st : ROM n K)
    (name : String) (r : ℕ) (frequency : Freq K)
    (h1 : (name == (r"arnoldi")) = false)
    (h2 : (name == (r"two_sided_arnoldi")) = false)
    (h3 : (name == (r"dual_rational_arnoldi")) = false)
    (h4 : (name == (r"real_rational_arnoldi")) = false) :
    run st name r frequency =
      ({ st with
          algorithm := some name
          frequency := some frequency
          r := r }, some (RunErr.notRecognised name)) := by
  unfold run
  simp only [h1, h2, h3, h4]
  rfl

/-- C5 (amended): the recognised algorithm names are arnoldi (the
one-sided reducer), two_sided_arnoldi, dual_rational_arnoldi and
real_rational_arnoldi (a stub raising NotImplementedError); each
recognised name dispatches to the corresponding reducer and stores its
result, and every other name — including the spec's one_sided_arnoldi —
raises a descriptive NotImplementedError immediately, without storing a
reduced model. -/
theorem C5_run_dispatch {n : ℕ} {K : Type} [RCLike K] (st : ROM n K)
    (r : ℕ) (frequency : Freq K) :
    (∀ ss (Ar : Matrix (Fin r) (Fin r) K) (Br Cr : Fin r → K),
      st.ss = some ss →
      one_sided_arnoldi ss frequency r = .ok (Ar, Br, Cr) →
      (run st (r"arnoldi") r frequency).1.ssrom =
          some ⟨r, Ar, Br, Cr, ss.D, ss.dt⟩ ∧
        (run st (r"arnoldi") r frequency).2 = none) ∧
    (∀ ss (Ar : Matrix (Fin r) (Fin r) K) (Br Cr : Fin r → K),
      st.ss = some ss →
      two_sided_arnoldi ss frequency r = .ok (Ar, Br, Cr) →
      (run st (r"two_sided_arnoldi") r frequency).1.ssrom =
          some ⟨r, Ar, Br, Cr, ss.D, ss.dt⟩ ∧
        (run st (r"two_sided_arnoldi") r frequency).2 = none) ∧
    (∀ ss k (Ar : Matrix (Fin k) (Fin k) K) (Br Cr : Fin k → K),
      st.ss = some ss →
      dual_rational_arnoldi_siso ss frequency r = .ok ⟨k, (Ar, Br, Cr)⟩ →
      (run st (r"dual_rational_arnoldi") r frequency).1.ssrom =
          some ⟨k, Ar, Br, Cr, ss.D, ss.dt⟩ ∧
        (run st (r"dual_rational_arnoldi") r frequency).2 = none) ∧
    ((run st (r"real_rational_arnoldi") r frequency).2 =
        some RunErr.notImplementedReal ∧
      (run st (r"real_rational_arnoldi") r frequency).1.ssrom =
        st.ssrom) ∧
    (∀ name, name ∉ ([(r"arnoldi"), (r"two_sided_arnoldi"),
        (r"dual_rational_arnoldi"), (r"real_rational_arnoldi")] :
        List String) →
      (run st name r frequency).2 = some (RunErr.notRecognised name) ∧
      (run st name r frequency).1.ssrom = st.ssrom) := by
  refine ⟨?_, ?_, ?_, ?_, ?_⟩
  · intro ss Ar Br Cr hss hok
    rw [run_arnoldi_eq st ss r frequency hss Ar Br Cr hok]
    exact ⟨rfl, rfl⟩
  · intro ss Ar Br Cr hss hok
    rw [run_two_eq st ss r frequency hss Ar Br Cr hok]
    exact ⟨rfl, rfl⟩
  · intro ss k Ar Br Cr hss hok
    rw [run_dual_eq st ss r frequency hss k Ar Br Cr hok]
    exact ⟨rfl, rfl⟩
  · rw [run_real_eq st r frequency]
    exact ⟨rfl, rfl⟩
  · intro name hname
    simp only [List.mem_cons, List.not_mem_nil, or_false] at hname
    push_neg at hname
    obtain ⟨e1, e2, e3, e4⟩ := hname
    rw [run_unknown_eq st name r frequency (beq_eq_false_iff_ne.mpr e1)
      (beq_eq_false_iff_ne.mpr e2) (beq_eq_false_iff_ne.mpr e3)
      (beq_eq_false_iff_ne.mpr e4)]
    exact ⟨rfl, rfl⟩

/-- C5 counterexample: the name one_sided_arnoldi, which the claim places
in the recognised set, is NOT recognised by the source — run raises
NotImplementedError instead of dispatching to the one-sided reducer. -/
theorem C5_counterexample :
    (run exState1 (r"one_sided_arnoldi") 1 (Freq.fnone : Freq ℝ)).2 =
      some (RunErr.notRecognised (r"one_sided_arnoldi")) ∧
    (run exState1 (r"one_sided_arnoldi") 1 (Freq.fnone : Freq ℝ)).1.ssrom =
      none := by
  rw [run_unknown_eq exState1 (r"one_sided_arnoldi") 1 Freq.fnone rfl rfl
    rfl rfl]
  exact ⟨rfl, rfl⟩

/-- Closed witness for C5 (amended), discharging the unrecognised-name
hypothesis at the concrete name one_sided_arnoldi. -/
theorem C5_witness :
    ((r"one_sided_arnoldi") ∉ ([(r"arnoldi"), (r"two_sided_arnoldi"),
      (r"dual_rational_arnoldi"), (r"real_rational_arnoldi")] :
      List String)) ∧
    (run exState1 (r"one_sided_arnoldi") 2 (Freq.fnone : Freq ℝ)).2 =
      some (RunErr.notRecognised (r"one_sided_arnoldi")) := by
  have hmem : ((r"one_sided_arnoldi") ∉ ([(r"arnoldi"),
      (r"two_sided_arnoldi"), (r"dual_rational_arnoldi"),
      (r"real_rational_arnoldi")] : List String)) := by
    decide
  exact ⟨hmem,
    ((C5_run_dispatch exState1 2 Freq.fnone).2.2.2.2 _ hmem).1⟩

/-- C7 (amended): the driver performs no order-versus-dimension check:
invoking run with r greater than the state dimension n raises no error at
all — the arnoldi reduction completes (with numerically degenerate
columns in floating point) and a reduced model is stored. -/
theorem C7_no_dimension_check {n : ℕ} (st : ROM n ℝ) (ss : LinSys n ℝ)
    (r : ℕ) (hss : st.ss = some ss) (_hr : n < r) :
    (run st (r"arnoldi") r (Freq.fnone : Freq ℝ)).2 = none ∧
    (run st (r"arnoldi") r (Freq.fnone : Freq ℝ)).1.ssrom ≠ none := by
  have hok : one_sided_arnoldi ss (Freq.fnone : Freq ℝ) r =
      .ok ((constructKrylov r ss.A ss.B (r"partial_realisation") (r"b"))ᵀ *
          ss.A * constructKrylov r ss.A ss.B (r"partial_realisation") (r"b"),
        (constructKrylov r ss.A ss.B (r"partial_realisation") (r"b"))ᵀ *ᵥ
          ss.B,
        ss.C ᵥ* constructKrylov r ss.A ss.B (r"partial_realisation")
          (r"b")) := rfl
  rw [run_arnoldi_eq st ss r Freq.fnone hss _ _ _ hok]
  exact ⟨rfl, by simp⟩

/-- C7 counterexample: the 1-state system with requested order r = 2 > 1
does not raise a dimension error — run succeeds and stores a reduced
model, contradicting the claim. -/
theorem C7_counterexample :
    (run exState1 (r"arnoldi") 2 (Freq.fnone : Freq ℝ)).2 = none ∧
    (run exState1 (r"arnoldi") 2 (Freq.fnone : Freq ℝ)).1.ssrom ≠ none := by
  have hok : one_sided_arnoldi exSys1 (Freq.fnone : Freq ℝ) 2 =
      .ok ((constructKrylov 2 exSys1.A exSys1.B (r"partial_realisation")
            (r"b"))ᵀ * exSys1.A *
          constructKrylov 2 exSys1.A exSys1.B (r"partial_realisation")
            (r"b"),
        (constructKrylov 2 exSys1.A exSys1.B (r"partial_realisation")
            (r"b"))ᵀ *ᵥ exSys1.B,
        exSys1.C ᵥ* constructKrylov 2 exSys1.A exSys1.B
          (r"partial_realisation") (r"b")) := rfl
  rw [run_arnoldi_eq exState1 exSys1 2 Freq.fnone rfl _ _ _ hok]
  exact ⟨rfl, by simp⟩

/-- Closed witness for C7 (amended) at the 1-state system with r = 3. -/
theorem C7_witness :
    exState1.ss = some exSys1 ∧ 1 < 3 ∧
    (run exState1 (r"arnoldi") 3 (Freq.fnone : Freq ℝ)).2 = none ∧
    (run exState1 (r"arnoldi") 3 (Freq.fnone : Freq ℝ)).1.ssrom ≠ none := by
  refine ⟨rfl, by norm_num, ?_, ?_⟩
  · exact (C7_no_dimension_check exState1 exSys1 3 rfl (by norm_num)).1
  · exact (C7_no_dimension_check exState1 exSys1 3 rfl (by norm_num)).2

/-- C4 (amended): the basis construction performs no degeneracy check: a
zero starting vector is not reported to the caller — run completes with
no error, and the leading basis column is degenerate (zero in the exact
arithmetic model; NaN after numpy's 0/0 in floating point). -/
theorem C4_zero_seed_no_error {n : ℕ} (st : ROM n ℝ) (ss : LinSys n ℝ)
    (r : ℕ) (hss : st.ss = some ss) (hB : ss.B = 0) (hr : 0 < r) :
    (run st (r"arnoldi") r (Freq.fnone : Freq ℝ)).2 = none ∧
    ∀ a : Fin n,
      constructKrylov r ss.A ss.B (r"partial_realisation") (r"b") a
        ⟨0, hr⟩ = 0 := by
  constructor
  · have hok : one_sided_arnoldi ss (Freq.fnone : Freq ℝ) r =
        .ok ((constructKrylov r ss.A ss.B (r"partial_realisation")
              (r"b"))ᵀ * ss.A *
            constructKrylov r ss.A ss.B (r"partial_realisation") (r"b"),
          (constructKrylov r ss.A ss.B (r"partial_realisation") (r"b"))ᵀ *ᵥ
            ss.B,
          ss.C ᵥ* constructKrylov r ss.A ss.B (r"partial_realisation")
            (r"b")) := rfl
    rw [run_arnoldi_eq st ss r Freq.fnone hss _ _ _ hok]
  · intro a
    simp only [constructKrylov, Matrix.of_apply]
    have hc := arnoldiCols_zero
      (krylovOp ss.A (r"partial_realisation") (r"b"))
      (krylovV0 ss.A ss.B (r"partial_realisation") (r"b"))
      (krylovF0 ss.A ss.B (r"partial_realisation") (r"b")) (r - 1)
    rw [hc, krylovV0_pr, hB]
    simp [normStep]

/-- C4 counterexample: with the zero-input 1-state system, run reports no
numerical-degeneracy error at all — the call succeeds. -/
theorem C4_counterexample :
    exSysZ.B = 0 ∧
    (run exStateZ (r"arnoldi") 1 (Freq.fnone : Freq ℝ)).2 = none := by
  constructor
  · funext i
    fin_cases i
    simp [exSysZ]
  · have hok : one_sided_arnoldi exSysZ (Freq.fnone : Freq ℝ) 1 =
        .ok ((constructKrylov 1 exSysZ.A exSysZ.B (r"partial_realisation")
              (r"b"))ᵀ * exSysZ.A *
            constructKrylov 1 exSysZ.A exSysZ.B (r"partial_realisation")
              (r"b"),
          (constructKrylov 1 exSysZ.A exSysZ.B (r"partial_realisation")
              (r"b"))ᵀ *ᵥ exSysZ.B,
          exSysZ.C ᵥ* constructKrylov 1 exSysZ.A exSysZ.B
            (r"partial_realisation") (r"b")) := rfl
    rw [run_arnoldi_eq exStateZ exSysZ 1 Freq.fnone rfl _ _ _ hok]

/-- Closed witness for C4 (amended) at the zero-input system with r = 2. -/
theorem C4_witness :
    exStateZ.ss = some exSysZ ∧ exSysZ.B = 0 ∧
    ((run exStateZ (r"arnoldi") 2 (Freq.fnone : Freq ℝ)).2 = none ∧
      ∀ a : Fin 1,
        constructKrylov 2 exSysZ.A exSysZ.B (r"partial_realisation")
          (r"b") a ⟨0, by norm_num⟩ = 0) := by
  have hB : exSysZ.B = 0 := by
    funext i
    fin_cases i
    simp [exSysZ]
  exact ⟨rfl, hB,
    C4_zero_seed_no_error exStateZ exSysZ 2 rfl hB (by norm_num)⟩

/-- C9: every successful run stores a ReducedSystem whose D and sample
interval are exactly the attached system's D and dt, replaces any
previously stored reduced model with the new result, and leaves the
attached full system unchanged. -/
theorem C9_run_carries_D_dt {n : ℕ} {K : Type} [RCLike K] (st : ROM n K)
    (algorithm : String) (r : ℕ) (frequency : Freq K)
    (h : (run st algorithm r frequency).2 = none) :
    ∃ ss rs, st.ss = some ss ∧
      (run st algorithm r frequency).1.ssrom = some rs ∧
      rs.D = ss.D ∧ rs.dt = ss.dt ∧
      (run st algorithm r frequency).1.ss = st.ss := by
  by_cases h1 : algorithm = (r"arnoldi")
  · subst h1
    cases hss : st.ss with
    | none =>
      rw [run_arnoldi_noss st r frequency hss] at h
      exact absurd h (by simp)
    | some ss =>
      cases hok : one_sided_arnoldi ss frequency r with
      | error e =>
        rw [run_arnoldi_err st ss r frequency hss e hok] at h
        exact absurd h (by simp)
      | ok t =>
        obtain ⟨Ar, Br, Cr⟩ := t
        refine ⟨ss, ⟨r, Ar, Br, Cr, ss.D, ss.dt⟩, rfl, ?_, rfl, rfl, ?_⟩
        · rw [run_arnoldi_eq st ss r frequency hss Ar Br Cr hok]
        · rw [run_arnoldi_eq st ss r frequency hss Ar Br Cr hok]
          exact hss
  · by_cases h2 : algorithm = (r"two_sided_arnoldi")
    · subst h2
      cases hss : st.ss with
      | none =>
        rw [run_two_noss st r frequency hss] at h
        exact absurd h (by simp)
      | some ss =>
        cases hok : two_sided_arnoldi ss frequency r with
        | error e =>
          rw [run_two_err st ss r frequency hss e hok] at h
          exact absurd h (by simp)
        | ok t =>
          obtain ⟨Ar, Br, Cr⟩ := t
          refine ⟨ss, ⟨r, Ar, Br, Cr, ss.D, ss.dt⟩, rfl, ?_, rfl, rfl, ?_⟩
          · rw [run_two_eq st ss r frequency hss Ar Br Cr hok]
          · rw [run_two_eq st ss r frequency hss Ar Br Cr hok]
            exact hss
    · by_cases h3 : algorithm = (r"dual_rational_arnoldi")
      · subst h3
        cases hss : st.ss with
        | none =>
          rw [run_dual_noss st r frequency hss] at h
          exact absurd h (by simp)
        | some ss =>
          cases hok : dual_rational_arnoldi_siso ss frequency r with
          | error e =>
            rw [run_dual_err st ss r frequency hss e hok] at h
            exact absurd h (by simp)
          | ok t =>
            obtain ⟨k, Ar, Br, Cr⟩ := t
            refine ⟨ss, ⟨k, Ar, Br, Cr, ss.D, ss.dt⟩, rfl, ?_, rfl, rfl,
              ?_⟩
            · rw [run_dual_eq st ss r frequency hss k Ar Br Cr hok]
            · rw [run_dual_eq st ss r frequency hss k Ar Br Cr hok]
              exact hss
      · by_cases h4 : algorithm = (r"real_rational_arnoldi")
        · subst h4
          rw [run_real_eq st r frequency] at h
          exact absurd h (by simp)
        · rw [run_unknown_eq st algorithm r frequency
            (beq_eq_false_iff_ne.mpr h1) (beq_eq_false_iff_ne.mpr h2)
            (beq_eq_false_iff_ne.mpr h3) (beq_eq_false_iff_ne.mpr h4)]
            at h
          exact absurd h (by simp)

/-- Closed witness for C9: a successful run on the discrete-time 1-state
system (with a stale stored reduced model) yields a stored model carrying
D = 5 and dt = 1/10 unchanged, with the attached system untouched. -/
theorem C9_witness :
    (run exState9 (r"arnoldi") 1 (Freq.fnone : Freq ℝ)).2 = none ∧
    ∃ ss rs, exState9.ss = some ss ∧
      (run exState9 (r"arnoldi") 1 (Freq.fnone : Freq ℝ)).1.ssrom =
        some rs ∧
      rs.D = ss.D ∧ rs.dt = ss.dt ∧
      (run exState9 (r"arnoldi") 1 (Freq.fnone : Freq ℝ)).1.ss =
        exState9.ss := by
  have hok : one_sided_arnoldi exSys9 (Freq.fnone : Freq ℝ) 1 =
      .ok ((constructKrylov 1 exSys9.A exSys9.B (r"partial_realisation")
            (r"b"))ᵀ * exSys9.A *
          constructKrylov 1 exSys9.A exSys9.B (r"partial_realisation")
            (r"b"),
        (constructKrylov 1 exSys9.A exSys9.B (r"partial_realisation")
            (r"b"))ᵀ *ᵥ exSys9.B,
        exSys9.C ᵥ* constructKrylov 1 exSys9.A exSys9.B
          (r"partial_realisation") (r"b")) := rfl
  have h : (run exState9 (r"arnoldi") 1 (Freq.fnone : Freq ℝ)).2 =
      none := by
    rw [run_arnoldi_eq exState9 exSys9 1 Freq.fnone rfl _ _ _ hok]
  exact ⟨h, C9_run_carries_D_dt exState9 (r"arnoldi") 1 Freq.fnone h⟩

end SharpyRom

end
